import Mathlib

/-!
Verification development for the directive-expansion engine of the
`automated-tools` repository (`prompt_utils.py`).

Texts are modelled as `List Char`.  The two placeholder regular expressions

  `\[#PLACEHOLDER_LOAD_FROM_FILE\s*\(\s*([^)]+?)\s*\)\]`
  `\[#PLACEHOLDER_LOAD_FILE_FROM_GIT\s*\(\s*([^,]+?)\s*,\s*([^,]+?)\s*,\s*([^)]+?)\s*\)\]`

are embedded as explicit scanners.  Because the character classes `[^)]`
(resp. `[^,]`) can never step over the closing delimiter and `\s` cannot
match it either, a Python match at a given position succeeds exactly when
the literal keyword is followed by whitespace, `(`, a nonempty delimiter-free
segment, the delimiter and `]`; the captured group followed by `.strip()` is
exactly the whitespace-trim of the segment.  `re.sub` scans left to right,
taking the leftmost match, splicing the replacement and resuming after the
match without rescanning the replacement; `pySubAux` below implements exactly
this, using a step-count argument (one unit per scanned character) so that
the function is structurally recursive and computable by the kernel.

`unroll_prompt` takes an explicit recursion budget (`fuel`); the Python
original recurses unboundedly and terminates because the `visited` set grows.
The state record `St` carries the `visited` list (the Python `visited` set,
newest key first) plus a ghost flag `ok` that records whether the budget
was ever exhausted; the flag does not influence the produced text and is
used to state and prove fuel-independence (termination) of the expansion.
-/

/-- Python `\s` on the ASCII range (the whitespace class used by `re` and
`str.strip`). -/
def isPySpace (c : Char) : Bool :=
  c == ' ' || c == '\t' || c == '\n' || c == '\r' || c == '\x0b' || c == '\x0c'

/-- Python `str.strip()`: remove leading and trailing whitespace. -/
def pyStrip (cs : List Char) : List Char :=
  ((cs.dropWhile isPySpace).reverse.dropWhile isPySpace).reverse

/-- Remove a literal prefix from a character list, `none` if it is absent. -/
def stripPfx : List Char → List Char → Option (List Char)
  | [], cs => some cs
  | _ :: _, [] => none
  | p :: ps, c :: cs => if p = c then stripPfx ps cs else none

/-- The literal head of the file-placeholder pattern. -/
def fileKeyword : List Char := "[#PLACEHOLDER_LOAD_FROM_FILE".data

/-- The literal head of the git-placeholder pattern. -/
def gitKeyword : List Char := "[#PLACEHOLDER_LOAD_FILE_FROM_GIT".data

/-- Attempt to match the file placeholder pattern at the start of `cs`.
On success returns `(captured filename, matched text, rest)`, mirroring
Python's `match.group(1).strip()`, `match.group(0)` and the scan resume
point.  The segment between `(` and the first `)` must be nonempty; the
match must be closed by `)]`. -/
def matchFileAt (cs : List Char) : Option (List Char × List Char × List Char) :=
  match stripPfx fileKeyword cs with
  | none => none
  | some r1 =>
    let ws := r1.takeWhile isPySpace
    let r2 := r1.dropWhile isPySpace
    match r2 with
    | '(' :: r3 =>
      let seg := r3.takeWhile (fun c => c != ')')
      let r4 := r3.dropWhile (fun c => c != ')')
      if seg.isEmpty then none
      else
        match r4 with
        | ')' :: ']' :: rest =>
          some (pyStrip seg, fileKeyword ++ ws ++ '(' :: seg ++ [')', ']'], rest)
        | _ => none
    | _ => none

/-- Attempt to match the git placeholder pattern at the start of `cs`.
Returns `((url, file location, branch), matched text, rest)`; each argument
is the whitespace-trim of the corresponding delimiter-free segment. -/
def matchGitAt (cs : List Char) :
    Option ((List Char × List Char × List Char) × List Char × List Char) :=
  match stripPfx gitKeyword cs with
  | none => none
  | some r1 =>
    let ws := r1.takeWhile isPySpace
    let r2 := r1.dropWhile isPySpace
    match r2 with
    | '(' :: r3 =>
      let seg1 := r3.takeWhile (fun c => c != ',')
      let r4 := r3.dropWhile (fun c => c != ',')
      if seg1.isEmpty then none
      else
        match r4 with
        | ',' :: r5 =>
          let seg2 := r5.takeWhile (fun c => c != ',')
          let r6 := r5.dropWhile (fun c => c != ',')
          if seg2.isEmpty then none
          else
            match r6 with
            | ',' :: r7 =>
              let seg3 := r7.takeWhile (fun c => c != ')')
              let r8 := r7.dropWhile (fun c => c != ')')
              if seg3.isEmpty then none
              else
                match r8 with
                | ')' :: ']' :: rest =>
                  some ((pyStrip seg1, pyStrip seg2, pyStrip seg3),
                    gitKeyword ++ ws ++ '(' :: seg1 ++ ',' :: seg2 ++ ',' :: seg3 ++ [')', ']'],
                    rest)
                | _ => none
            | _ => none
        | _ => none
    | _ => none

/-- One step-counted pass of `re.sub` with a stateful replacement function:
scan left to right, at each position try the matcher; on a match emit the
replacement and resume after the matched text, otherwise keep the character
and move one position right.  The step count `n` is only a structural
recursion budget; `n = t.length` always suffices because every match
consumes at least one character. -/
def pySubAux {α σ : Type} (M : List Char → Option (α × List Char × List Char))
    (R : α → List Char → σ → List Char × σ) : Nat → List Char → σ → List Char × σ
  | _, [], s => ([], s)
  | 0, t, s => (t, s)
  | n + 1, c :: cs, s =>
    match M (c :: cs) with
    | some (a, m, rest) =>
      let p := R a m s
      let q := pySubAux M R n rest p.2
      (p.1 ++ q.1, q.2)
    | none =>
      let q := pySubAux M R n cs s
      (c :: q.1, q.2)

/-- `pattern.sub(repl, t)` with threaded state. -/
def pySub {α σ : Type} (M : List Char → Option (α × List Char × List Char))
    (R : α → List Char → σ → List Char × σ) (t : List Char) (s : σ) : List Char × σ :=
  pySubAux M R t.length t s

/-- Step-counted scan decomposing a text into the list of matches the
substitution pass would process — `(gap before the match, capture, matched
text)` triples — together with the unmatched tail. -/
def pyScanAux {α : Type} (M : List Char → Option (α × List Char × List Char)) :
    Nat → List Char → List (List Char × α × List Char) × List Char
  | _, [] => ([], [])
  | 0, t => ([], t)
  | n + 1, c :: cs =>
    match M (c :: cs) with
    | some (a, m, rest) =>
      let q := pyScanAux M n rest
      (([], a, m) :: q.1, q.2)
    | none =>
      let q := pyScanAux M n cs
      match q.1 with
      | [] => ([], c :: q.2)
      | (g, a, m) :: ms => ((c :: g, a, m) :: ms, q.2)

/-- The match decomposition of a text under matcher `M`. -/
def pyScan {α : Type} (M : List Char → Option (α × List Char × List Char))
    (t : List Char) : List (List Char × α × List Char) × List Char :=
  pyScanAux M t.length t

/-- Replay a match decomposition: substitute each match via `R`, keep the
gaps and the tail verbatim. -/
def foldSub {α σ : Type} (R : α → List Char → σ → List Char × σ) :
    List (List Char × α × List Char) → List Char → σ → List Char × σ
  | [], tail, s => (tail, s)
  | (g, a, m) :: ms, tail, s =>
    let p := R a m s
    let q := foldSub R ms tail p.2
    (g ++ p.1 ++ q.1, q.2)

/-- Prepend a gap to the first match of a decomposition (or to the tail if
there is none). -/
def prependGap {α : Type} (g : List Char)
    (p : List (List Char × α × List Char) × List Char) :
    List (List Char × α × List Char) × List Char :=
  match p.1 with
  | [] => ([], g ++ p.2)
  | (g0, a, m) :: ms => ((g ++ g0, a, m) :: ms, p.2)

/-- A directive identity: the tuple Python stores in `visited` —
`("LOAD_FROM_FILE", filename)` or `("LOAD_FROM_GIT", url, loc, branch)`,
all fields trimmed. -/
inductive Key where
  | file : List Char → Key
  | git : List Char → List Char → List Char → Key
deriving DecidableEq

/-- Expansion state: the Python `visited` set (newest key first) plus the
ghost budget flag `ok` (true while the fuel never ran out). -/
structure St where
  visited : List Key
  ok : Bool
deriving DecidableEq

/-- The environment an expansion runs against: the `ASSISTANTS_DIR` value,
the local filesystem (association list path ↦ content), the observable
content of git files (url, location, branch ↦ content, `none` = any
failure of clone/fetch/show), and the rendered exception messages (`{e}`
in the two error f-strings). -/
structure Env where
  assistants_dir : List Char
  fs : List (List Char × List Char)
  git : List Char → List Char → List Char → Option (List Char)
  fileMsg : List Char
  gitMsg : List Char

/-- Association-list lookup used for the filesystem and the repo store. -/
def lookupFs : List (List Char × List Char) → List Char → Option (List Char)
  | [], _ => none
  | (k, v) :: r, p => if k = p then some v else lookupFs r p

/-- `os.path.join(a, b)` (POSIX): an absolute `b` discards `a`. -/
def os_path_join (a b : List Char) : List Char :=
  if b.head? = some '/' then b
  else if a = [] then b
  else if a.getLast? = some '/' then a ++ b
  else a ++ '/' :: b

/-- `unroll_prompt_from_file(filename, dir=None)`: read the file at
`os.path.join(base_dir, filename)` where `base_dir` is `dir` if truthy
(Python: the empty string is falsy) else the `ASSISTANTS_DIR` environment
value.  `none` models the raised exception when the file is absent. -/
def unroll_prompt_from_file (env : Env) (dir : Option (List Char))
    (filename : List Char) : Option (List Char) :=
  let base := match dir with
    | some d => if d = [] then env.assistants_dir else d
    | none => env.assistants_dir
  lookupFs env.fs (os_path_join base filename)

/-- The inline error text `[Error loading file '<filename>': <e>]`. -/
def fileErrText (filename msg : List Char) : List Char :=
  "[Error loading file ".data ++ '\'' :: filename ++ '\'' :: ':' :: ' ' :: msg ++ [']']

/-- The inline error text
`[Error loading from git (<url>, <loc>, <branch>): <e>]`. -/
def gitErrText (u l b msg : List Char) : List Char :=
  "[Error loading from git (".data ++ u ++ ", ".data ++ l ++ ", ".data ++ b
    ++ "): ".data ++ msg ++ [']']

/-- The text `file_repl` hands to the recursive call: the loaded content on
success, the inline error text on failure (the `try`/`except` body). -/
def file_content (env : Env) (f : List Char) : List Char :=
  match unroll_prompt_from_file env none f with
  | some c => c
  | none => fileErrText f env.fileMsg

/-- The text `git_repl` hands to the recursive call. -/
def git_content (env : Env) (u l b : List Char) : List Char :=
  match env.git u l b with
  | some c => c
  | none => gitErrText u l b env.gitMsg

/-- `unroll_prompt(prompt, visited)`: replace every file placeholder
(recursively expanding the loaded content, threading `visited`), then every
git placeholder, over the text produced by the file pass.  A placeholder
whose key is already in `visited` is left as its verbatim matched text.
`fuel` bounds the recursion depth; when it runs out the current text is
returned and the ghost flag `ok` is cleared. -/
def unroll_prompt (env : Env) : Nat → List Char → St → List Char × St
  | 0, prompt, s => (prompt, { s with ok := false })
  | n + 1, prompt, s =>
    let fRepl : List Char → List Char → St → List Char × St := fun f m s' =>
      if Key.file f ∈ s'.visited then (m, s')
      else unroll_prompt env n (file_content env f)
        { s' with visited := Key.file f :: s'.visited }
    let gRepl : List Char × List Char × List Char → List Char → St → List Char × St :=
      fun a m s' =>
      if Key.git a.1 a.2.1 a.2.2 ∈ s'.visited then (m, s')
      else unroll_prompt env n (git_content env a.1 a.2.1 a.2.2)
        { s' with visited := Key.git a.1 a.2.1 a.2.2 :: s'.visited }
    let r1 := pySub matchFileAt fRepl prompt s
    pySub matchGitAt gRepl r1.1 r1.2

/-- The nested `file_repl(match)` of the source, as a standalone function of
the captured filename, the matched text and the state. -/
def file_repl (env : Env) (n : Nat) (f m : List Char) (s : St) : List Char × St :=
  if Key.file f ∈ s.visited then (m, s)
  else unroll_prompt env n (file_content env f)
    { s with visited := Key.file f :: s.visited }

/-- The nested `git_repl(match)` of the source. -/
def git_repl (env : Env) (n : Nat) (a : List Char × List Char × List Char)
    (m : List Char) (s : St) : List Char × St :=
  if Key.git a.1 a.2.1 a.2.2 ∈ s.visited then (m, s)
  else unroll_prompt env n (git_content env a.1 a.2.1 a.2.2)
    { s with visited := Key.git a.1 a.2.1 a.2.2 :: s.visited }

/-- A top-level call: `unroll_prompt(prompt)` with `visited = set()`. -/
def unroll_prompt_top (env : Env) (fuel : Nat) (prompt : List Char) : List Char :=
  (unroll_prompt env fuel prompt ⟨[], true⟩).1

/-- Python `s.split(sep)` for a one-character separator (keeps empty
fields, never returns an empty list). -/
def splitOnChar (sep : Char) : List Char → List (List Char)
  | [] => [[]]
  | x :: xs =>
    let r := splitOnChar sep xs
    if x = sep then [] :: r
    else
      match r with
      | [] => [[x]]
      | h :: t => (x :: h) :: t

/-- Boolean "p is a prefix of cs". -/
def pfxB : List Char → List Char → Bool
  | [], _ => true
  | _ :: _, [] => false
  | a :: as, b :: bs => a == b && pfxB as bs

/-- Boolean "p is a suffix of cs" (Python `str.endswith`). -/
def sfxB (p cs : List Char) : Bool := pfxB p.reverse cs.reverse

/-- Python `s.rstrip("/")`. -/
def rstripSlash (cs : List Char) : List Char :=
  (cs.reverse.dropWhile (fun c => c == '/')).reverse

/-- `get_repo_name(git_url)`: the SSH-shaped branch (`"@" in url and ":" in
url`) takes everything after the last colon; the other branch takes the last
slash-separated segment of the slash-rstripped url; a trailing `.git` is
dropped. -/
def get_repo_name (git_url : List Char) : List Char :=
  let part :=
    if git_url.contains '@' && git_url.contains ':' then
      (splitOnChar ':' git_url).getLastD []
    else
      (splitOnChar '/' (rstripSlash git_url)).getLastD []
  if sfxB ".git".data part then part.take (part.length - 4) else part

/-- The git operation `unroll_prompt_from_git` performs on the local cache. -/
inductive GitAction where
  | clone : GitAction
  | fetch : GitAction
deriving DecidableEq

/-- The local `'repos'` cache folder. -/
def repos_dir : List Char := "repos".data

/-- `repo_path = os.path.join(repos_dir, get_repo_name(git_url))`. -/
def repo_path (git_url : List Char) : List Char :=
  os_path_join repos_dir (get_repo_name git_url)

/-- The on-disk repository cache: which clone paths exist, and for each the
url it was cloned from (the clone's `origin` remote, which `git fetch` and
`git show` subsequently use). -/
structure RepoStore where
  cloned : List (List Char × List Char)
deriving DecidableEq

/-- `unroll_prompt_from_git(git_url, file_location, branch)` over an
abstract world `world url loc branch = content of that file at that ref in
the repository at url`: if the derived clone path does not exist the
repository is cloned (registering `git_url` as the clone's origin),
otherwise the existing clone is only fetched; `git show` then reads the
file from the local clone, i.e. from the repository the clone's origin
points at. -/
def unroll_prompt_from_git
    (world : List Char → List Char → List Char → Option (List Char))
    (store : RepoStore) (git_url file_location branch : List Char) :
    RepoStore × GitAction × Option (List Char) :=
  let p := repo_path git_url
  match lookupFs store.cloned p with
  | some origin => (store, GitAction.fetch, world origin file_location branch)
  | none => (⟨(p, git_url) :: store.cloned⟩, GitAction.clone,
      world git_url file_location branch)

/-- Canonical surface text of a file directive with whitespace `ws` between
the keyword and `(`. -/
def dFile (ws f : List Char) : List Char :=
  fileKeyword ++ ws ++ '(' :: f ++ [')', ']']

/-- Canonical surface text of a git directive. -/
def dGit (ws u l b : List Char) : List Char :=
  gitKeyword ++ ws ++ '(' :: u ++ ',' :: l ++ ',' :: b ++ [')', ']']

/-- Boolean "the two-character sequence `[#` occurs nowhere in `cs`". -/
def noMark : List Char → Bool
  | [] => true
  | [_] => true
  | c :: d :: r => !(c == '[' && d == '#') && noMark (d :: r)

/-- A concrete environment used by the witnesses: files `a` and `b`
reference each other in a cycle, `c` is directive-free, git loads fail. -/
def envW : Env := {
  assistants_dir := []
  fs := [("a".data, "x[#PLACEHOLDER_LOAD_FROM_FILE (b)]y".data),
         ("b".data, "z[#PLACEHOLDER_LOAD_FROM_FILE (a)]w".data),
         ("c".data, "hello".data),
         ("na".data, "-[#PLACEHOLDER_LOAD_FROM_FILE (c)]-".data),
         ("/abs/creds.txt".data, "secret30".data)]
  git := fun _ _ _ => none
  fileMsg := "file not found".data
  gitMsg := "git error".data }

/-- A concrete git world for the repository-cache witnesses: content is
`one:<loc>` for the first url, `two:<loc>` for every other. -/
def worldW (u l _b : List Char) : Option (List Char) :=
  if u = "https://hostone/x/repo.git".data then some ("one:".data ++ l)
  else some ("two:".data ++ l)

theorem pySubAux_nil {α σ : Type} (M : List Char → Option (α × List Char × List Char))
    (R : α → List Char → σ → List Char × σ) (n : Nat) (s : σ) :
    pySubAux M R n [] s = ([], s) := by
  cases n <;> rfl

theorem pySubAux_zero {α σ : Type} (M : List Char → Option (α × List Char × List Char))
    (R : α → List Char → σ → List Char × σ) (t : List Char) (s : σ) :
    pySubAux M R 0 t s = (t, s) := by
  cases t <;> rfl

theorem pySubAux_cons {α σ : Type} (M : List Char → Option (α × List Char × List Char))
    (R : α → List Char → σ → List Char × σ) (n : Nat) (c : Char) (cs : List Char) (s : σ) :
    pySubAux M R (n + 1) (c :: cs) s =
      match M (c :: cs) with
      | some (a, m, rest) =>
        let p := R a m s
        let q := pySubAux M R n rest p.2
        (p.1 ++ q.1, q.2)
      | none =>
        let q := pySubAux M R n cs s
        (c :: q.1, q.2) := rfl

theorem pyScanAux_nil {α : Type} (M : List Char → Option (α × List Char × List Char))
    (n : Nat) : pyScanAux M n [] = ([], []) := by
  cases n <;> rfl

theorem pyScanAux_zero {α : Type} (M : List Char → Option (α × List Char × List Char))
    (t : List Char) : pyScanAux M 0 t = ([], t) := by
  cases t <;> rfl

theorem pyScanAux_cons {α : Type} (M : List Char → Option (α × List Char × List Char))
    (n : Nat) (c : Char) (cs : List Char) :
    pyScanAux M (n + 1) (c :: cs) =
      match M (c :: cs) with
      | some (a, m, rest) =>
        let q := pyScanAux M n rest
        (([], a, m) :: q.1, q.2)
      | none =>
        let q := pyScanAux M n cs
        match q.1 with
        | [] => ([], c :: q.2)
        | (g, a, m) :: ms => ((c :: g, a, m) :: ms, q.2) := rfl

/-- A substitution pass is the replay of its match decomposition. -/
theorem pySubAux_eq_fold {α σ : Type} (M : List Char → Option (α × List Char × List Char))
    (R : α → List Char → σ → List Char × σ) :
    ∀ (n : Nat) (t : List Char) (s : σ),
      pySubAux M R n t s = foldSub R (pyScanAux M n t).1 (pyScanAux M n t).2 s := by
  intro n
  induction n with
  | zero =>
    intro t s
    rw [pySubAux_zero, pyScanAux_zero]
    rfl
  | succ n ih =>
    intro t s
    cases t with
    | nil =>
      rw [pySubAux_nil, pyScanAux_nil]
      rfl
    | cons c cs =>
      rw [pySubAux_cons, pyScanAux_cons]
      cases h : M (c :: cs) with
      | some r =>
        obtain ⟨a, m, rest⟩ := r
        simp only [foldSub, ih, List.nil_append]
      | none =>
        have ihc := ih cs s
        cases hq : (pyScanAux M n cs).1 with
        | nil =>
          simp only [hq] at ihc
          simp only [foldSub] at ihc
          simp only [hq, foldSub, ihc]
        | cons p ms =>
          obtain ⟨g, a, m⟩ := p
          simp only [hq] at ihc
          simp only [foldSub] at ihc
          simp only [hq, foldSub, ihc, List.cons_append, List.append_assoc]

theorem pySub_eq_fold {α σ : Type} (M : List Char → Option (α × List Char × List Char))
    (R : α → List Char → σ → List Char × σ) (t : List Char) (s : σ) :
    pySub M R t s = foldSub R (pyScan M t).1 (pyScan M t).2 s :=
  pySubAux_eq_fold M R t.length t s

/-- When a scan finds no match, the tail is the whole text. -/
theorem pyScanAux_no_matches {α : Type} (M : List Char → Option (α × List Char × List Char)) :
    ∀ (n : Nat) (t : List Char), (pyScanAux M n t).1 = [] → (pyScanAux M n t).2 = t := by
  intro n
  induction n with
  | zero =>
    intro t _
    rw [pyScanAux_zero]
  | succ n ih =>
    intro t h
    cases t with
    | nil => rw [pyScanAux_nil]
    | cons c cs =>
      rw [pyScanAux_cons] at h ⊢
      cases hm : M (c :: cs) with
      | some r =>
        obtain ⟨a, m, rest⟩ := r
        simp only [hm] at h
        exact absurd h (List.cons_ne_nil _ _)
      | none =>
        simp only [hm] at h ⊢
        cases hq : (pyScanAux M n cs).1 with
        | nil => simp only [hq, ih cs hq]
        | cons p ms =>
          obtain ⟨g, a, m⟩ := p
          simp only [hq] at h
          exact absurd h (List.cons_ne_nil _ _)

/-- When a scan finds no match, the tail is the whole text. -/
theorem pyScan_no_matches {α : Type} (M : List Char → Option (α × List Char × List Char))
    (t : List Char) (h : (pyScan M t).1 = []) : (pyScan M t).2 = t :=
  pyScanAux_no_matches M t.length t h

/-- A matchless substitution pass is the identity. -/
theorem pySub_no_matches {α σ : Type} (M : List Char → Option (α × List Char × List Char))
    (R : α → List Char → σ → List Char × σ) (t : List Char) (s : σ)
    (h : (pyScan M t).1 = []) : pySub M R t s = (t, s) := by
  rw [pySub_eq_fold, h, pyScan_no_matches M t h]
  rfl

theorem unroll_zero (env : Env) (t : List Char) (s : St) :
    unroll_prompt env 0 t s = (t, { s with ok := false }) := rfl

/-- The explicit two-pass form of a successor step: the git pass runs over
the output (text and state) of the completed file pass. -/
theorem unroll_succ (env : Env) (n : Nat) (t : List Char) (s : St) :
    unroll_prompt env (n + 1) t s =
      (let r1 := pySub matchFileAt (file_repl env n) t s
       pySub matchGitAt (git_repl env n) r1.1 r1.2) := rfl

/-- The two-pass form of a successor step without the intermediate `let`. -/
theorem unroll_succ2 (env : Env) (n : Nat) (t : List Char) (s : St) :
    unroll_prompt env (n + 1) t s =
      pySub matchGitAt (git_repl env n)
        (pySub matchFileAt (file_repl env n) t s).1
        (pySub matchFileAt (file_repl env n) t s).2 := rfl

/-- A text in which neither pattern matches is expanded to itself, with the
visited set unchanged. -/
theorem unroll_no_matches (env : Env) (n : Nat) (t : List Char) (s : St)
    (hf : (pyScan matchFileAt t).1 = []) (hg : (pyScan matchGitAt t).1 = []) :
    (unroll_prompt env n t s).1 = t ∧ (unroll_prompt env n t s).2.visited = s.visited := by
  cases n with
  | zero => exact ⟨rfl, rfl⟩
  | succ n =>
    have heq : unroll_prompt env (n + 1) t s = (t, s) := by
      rw [unroll_succ]
      rw [pySub_no_matches matchFileAt (file_repl env n) t s hf]
      exact pySub_no_matches matchGitAt (git_repl env n) t s hg
    rw [heq]
    exact ⟨rfl, rfl⟩

/-- The visited list only grows (by prepending) along a replay, provided
each replacement only grows it. -/
theorem foldSub_visited_mono {α : Type} (R : α → List Char → St → List Char × St)
    (hR : ∀ a m s', ∃ d, (R a m s').2.visited = d ++ s'.visited) :
    ∀ (ms : List (List Char × α × List Char)) (tail : List Char) (s : St),
      ∃ d, (foldSub R ms tail s).2.visited = d ++ s.visited := by
  intro ms
  induction ms with
  | nil => exact fun tail s => ⟨[], rfl⟩
  | cons p ms ih =>
    obtain ⟨g, a, m⟩ := p
    intro tail s
    obtain ⟨d1, hd1⟩ := hR a m s
    obtain ⟨d2, hd2⟩ := ih tail (R a m s).2
    exact ⟨d2 ++ d1, by simp only [foldSub, hd2, hd1, List.append_assoc]⟩

/-- The visited list only grows across an expansion. -/
theorem unroll_visited_mono (env : Env) :
    ∀ (n : Nat) (t : List Char) (s : St),
      ∃ d, (unroll_prompt env n t s).2.visited = d ++ s.visited := by
  intro n
  induction n with
  | zero => exact fun t s => ⟨[], rfl⟩
  | succ n ih =>
    have hfile : ∀ f m s', ∃ d, (file_repl env n f m s').2.visited = d ++ s'.visited := by
      intro f m s'
      unfold file_repl
      by_cases hv : Key.file f ∈ s'.visited
      · exact ⟨[], by simp [hv]⟩
      · obtain ⟨d, hd⟩ := ih (file_content env f)
          { s' with visited := Key.file f :: s'.visited }
        exact ⟨d ++ [Key.file f], by simp [hv, hd]⟩
    have hgit : ∀ a m s', ∃ d, (git_repl env n a m s').2.visited = d ++ s'.visited := by
      intro a m s'
      unfold git_repl
      by_cases hv : Key.git a.1 a.2.1 a.2.2 ∈ s'.visited
      · exact ⟨[], by simp [hv]⟩
      · obtain ⟨d, hd⟩ := ih (git_content env a.1 a.2.1 a.2.2)
          { s' with visited := Key.git a.1 a.2.1 a.2.2 :: s'.visited }
        exact ⟨d ++ [Key.git a.1 a.2.1 a.2.2], by simp [hv, hd]⟩
    intro t s
    rw [unroll_succ]
    rw [pySub_eq_fold matchFileAt, pySub_eq_fold matchGitAt]
    obtain ⟨d1, hd1⟩ := foldSub_visited_mono (file_repl env n) hfile
      (pyScan matchFileAt t).1 (pyScan matchFileAt t).2 s
    set r1 := foldSub (file_repl env n) (pyScan matchFileAt t).1 (pyScan matchFileAt t).2 s
      with hr1
    obtain ⟨d2, hd2⟩ := foldSub_visited_mono (git_repl env n) hgit
      (pyScan matchGitAt r1.1).1 (pyScan matchGitAt r1.1).2 r1.2
    exact ⟨d2 ++ d1, by rw [hd2, hd1, List.append_assoc]⟩

/-- Once the budget flag is cleared it stays cleared along a replay. -/
theorem foldSub_ok_absorb {α : Type} (R : α → List Char → St → List Char × St)
    (hR : ∀ a m s', s'.ok = false → (R a m s').2.ok = false) :
    ∀ (ms : List (List Char × α × List Char)) (tail : List Char) (s : St),
      s.ok = false → (foldSub R ms tail s).2.ok = false := by
  intro ms
  induction ms with
  | nil => exact fun tail s h => h
  | cons p ms ih =>
    obtain ⟨g, a, m⟩ := p
    intro tail s h
    exact ih tail (R a m s).2 (hR a m s h)

/-- Once the budget flag is cleared it stays cleared across an expansion. -/
theorem unroll_ok_absorb (env : Env) :
    ∀ (n : Nat) (t : List Char) (s : St),
      s.ok = false → (unroll_prompt env n t s).2.ok = false := by
  intro n
  induction n with
  | zero => exact fun t s _ => rfl
  | succ n ih =>
    have hfile : ∀ f m s', St.ok s' = false → (file_repl env n f m s').2.ok = false := by
      intro f m s' h
      unfold file_repl
      by_cases hv : Key.file f ∈ s'.visited
      · simp [hv, h]
      · simp only [hv, if_neg, ite_false]
        exact ih _ _ h
    have hgit : ∀ a m s', St.ok s' = false → (git_repl env n a m s').2.ok = false := by
      intro a m s' h
      unfold git_repl
      by_cases hv : Key.git a.1 a.2.1 a.2.2 ∈ s'.visited
      · simp [hv, h]
      · simp only [hv, if_neg, ite_false]
        exact ih _ _ h
    intro t s h
    rw [unroll_succ]
    rw [pySub_eq_fold matchFileAt, pySub_eq_fold matchGitAt]
    exact foldSub_ok_absorb (git_repl env n) hgit _ _ _
      (foldSub_ok_absorb (file_repl env n) hfile _ _ _ h)

/-- Distinctness of the visited list is preserved along a replay. -/
theorem foldSub_nodup {α : Type} (R : α → List Char → St → List Char × St)
    (hR : ∀ a m s', s'.visited.Nodup → (R a m s').2.visited.Nodup) :
    ∀ (ms : List (List Char × α × List Char)) (tail : List Char) (s : St),
      s.visited.Nodup → (foldSub R ms tail s).2.visited.Nodup := by
  intro ms
  induction ms with
  | nil => exact fun tail s h => h
  | cons p ms ih =>
    obtain ⟨g, a, m⟩ := p
    intro tail s h
    exact ih tail (R a m s).2 (hR a m s h)

/-- An expansion never records the same directive twice: distinctness of
the visited list is an invariant, because a key is only prepended after the
membership test failed. -/
theorem unroll_nodup (env : Env) :
    ∀ (n : Nat) (t : List Char) (s : St),
      s.visited.Nodup → (unroll_prompt env n t s).2.visited.Nodup := by
  intro n
  induction n with
  | zero => exact fun t s h => h
  | succ n ih =>
    have hfile : ∀ f m s', s'.visited.Nodup → (file_repl env n f m s').2.visited.Nodup := by
      intro f m s' h
      unfold file_repl
      by_cases hv : Key.file f ∈ s'.visited
      · simpa [hv] using h
      · simp only [hv, if_neg, ite_false]
        exact ih _ _ (List.nodup_cons.mpr ⟨hv, h⟩)
    have hgit : ∀ a m s', s'.visited.Nodup → (git_repl env n a m s').2.visited.Nodup := by
      intro a m s' h
      unfold git_repl
      by_cases hv : Key.git a.1 a.2.1 a.2.2 ∈ s'.visited
      · simpa [hv] using h
      · simp only [hv, if_neg, ite_false]
        exact ih _ _ (List.nodup_cons.mpr ⟨hv, h⟩)
    intro t s h
    rw [unroll_succ]
    rw [pySub_eq_fold matchFileAt, pySub_eq_fold matchGitAt]
    exact foldSub_nodup (git_repl env n) hgit _ _ _
      (foldSub_nodup (file_repl env n) hfile _ _ _ h)

theorem file_repl_ok_absorb (env : Env) (n : Nat) :
    ∀ (f m : List Char) (s' : St), s'.ok = false → (file_repl env n f m s').2.ok = false := by
  intro f m s' h
  unfold file_repl
  by_cases hv : Key.file f ∈ s'.visited
  · simp [hv, h]
  · simp only [hv, ite_false]
    exact unroll_ok_absorb env n _ _ h

theorem git_repl_ok_absorb (env : Env) (n : Nat) :
    ∀ (a : List Char × List Char × List Char) (m : List Char) (s' : St),
      s'.ok = false → (git_repl env n a m s').2.ok = false := by
  intro a m s' h
  unfold git_repl
  by_cases hv : Key.git a.1 a.2.1 a.2.2 ∈ s'.visited
  · simp [hv, h]
  · simp only [hv, ite_false]
    exact unroll_ok_absorb env n _ _ h

theorem file_repl_visited_mono (env : Env) (n : Nat) :
    ∀ (f m : List Char) (s' : St), ∃ d, (file_repl env n f m s').2.visited = d ++ s'.visited := by
  intro f m s'
  unfold file_repl
  by_cases hv : Key.file f ∈ s'.visited
  · exact ⟨[], by simp [hv]⟩
  · obtain ⟨d, hd⟩ := unroll_visited_mono env n (file_content env f)
      { s' with visited := Key.file f :: s'.visited }
    exact ⟨d ++ [Key.file f], by simp [hv, hd]⟩

theorem git_repl_visited_mono (env : Env) (n : Nat) :
    ∀ (a : List Char × List Char × List Char) (m : List Char) (s' : St),
      ∃ d, (git_repl env n a m s').2.visited = d ++ s'.visited := by
  intro a m s'
  unfold git_repl
  by_cases hv : Key.git a.1 a.2.1 a.2.2 ∈ s'.visited
  · exact ⟨[], by simp [hv]⟩
  · obtain ⟨d, hd⟩ := unroll_visited_mono env n (git_content env a.1 a.2.1 a.2.2)
      { s' with visited := Key.git a.1 a.2.1 a.2.2 :: s'.visited }
    exact ⟨d ++ [Key.git a.1 a.2.1 a.2.2], by simp [hv, hd]⟩

theorem pySub_ok_absorb {α : Type} (M : List Char → Option (α × List Char × List Char))
    (R : α → List Char → St → List Char × St)
    (hR : ∀ a m s', s'.ok = false → (R a m s').2.ok = false)
    (t : List Char) (s : St) (h : s.ok = false) : (pySub M R t s).2.ok = false := by
  rw [pySub_eq_fold]
  exact foldSub_ok_absorb R hR _ _ s h

theorem pySub_visited_mono {α : Type} (M : List Char → Option (α × List Char × List Char))
    (R : α → List Char → St → List Char × St)
    (hR : ∀ a m s', ∃ d, (R a m s').2.visited = d ++ s'.visited)
    (t : List Char) (s : St) : ∃ d, (pySub M R t s).2.visited = d ++ s.visited := by
  rw [pySub_eq_fold]
  exact foldSub_visited_mono R hR _ _ s

/-- Two replacement functions that agree wherever the second one finishes
within budget produce the same replay, as long as that replay finishes
within budget. -/
theorem foldSub_congr {α : Type} (R1 R2 : α → List Char → St → List Char × St)
    (habs : ∀ a m s', s'.ok = false → (R2 a m s').2.ok = false)
    (hag : ∀ a m s', (R2 a m s').2.ok = true → R1 a m s' = R2 a m s') :
    ∀ (ms : List (List Char × α × List Char)) (tail : List Char) (s : St),
      (foldSub R2 ms tail s).2.ok = true → foldSub R1 ms tail s = foldSub R2 ms tail s := by
  intro ms
  induction ms with
  | nil => exact fun tail s _ => rfl
  | cons p ms ih =>
    obtain ⟨g, a, m⟩ := p
    intro tail s hfin
    have hstep : (R2 a m s).2.ok = true := by
      by_contra hc
      have hc' : (R2 a m s).2.ok = false := by
        cases hb : (R2 a m s).2.ok
        · rfl
        · exact absurd hb hc
      have : (foldSub R2 ms tail (R2 a m s).2).2.ok = false :=
        foldSub_ok_absorb R2 habs ms tail _ hc'
      simp only [foldSub] at hfin
      rw [hfin] at this
      simp at this
    have heq := hag a m s hstep
    have hfin' : (foldSub R2 ms tail (R2 a m s).2).2.ok = true := by
      simpa only [foldSub] using hfin
    simp only [foldSub, heq, ih tail (R2 a m s).2 hfin']

theorem pySub_congr {α : Type} (M : List Char → Option (α × List Char × List Char))
    (R1 R2 : α → List Char → St → List Char × St)
    (habs : ∀ a m s', s'.ok = false → (R2 a m s').2.ok = false)
    (hag : ∀ a m s', (R2 a m s').2.ok = true → R1 a m s' = R2 a m s')
    (t : List Char) (s : St) (h : (pySub M R2 t s).2.ok = true) :
    pySub M R1 t s = pySub M R2 t s := by
  rw [pySub_eq_fold] at h ⊢
  rw [pySub_eq_fold]
  exact foldSub_congr R1 R2 habs hag _ _ s h

/-- One extra unit of fuel does not change an expansion that finished
within budget. -/
theorem unroll_stab_succ (env : Env) :
    ∀ (n : Nat) (t : List Char) (s : St), (unroll_prompt env n t s).2.ok = true →
      unroll_prompt env (n + 1) t s = unroll_prompt env n t s := by
  intro n
  induction n with
  | zero =>
    intro t s h
    rw [unroll_zero] at h
    exact absurd h (by simp)
  | succ n ih =>
    intro t s h
    have hagF : ∀ f m s', (file_repl env n f m s').2.ok = true →
        file_repl env (n + 1) f m s' = file_repl env n f m s' := by
      intro f m s' hok
      unfold file_repl at hok ⊢
      by_cases hv : Key.file f ∈ s'.visited
      · simp [hv]
      · simp only [hv, ite_false] at hok ⊢
        exact ih _ _ hok
    have hagG : ∀ a m s', (git_repl env n a m s').2.ok = true →
        git_repl env (n + 1) a m s' = git_repl env n a m s' := by
      intro a m s' hok
      unfold git_repl at hok ⊢
      by_cases hv : Key.git a.1 a.2.1 a.2.2 ∈ s'.visited
      · simp [hv]
      · simp only [hv, ite_false] at hok ⊢
        exact ih _ _ hok
    rw [unroll_succ2 env n t s] at h
    rw [unroll_succ2 env (n + 1) t s, unroll_succ2 env n t s]
    set r1 := pySub matchFileAt (file_repl env n) t s with hr1
    have hr1ok : r1.2.ok = true := by
      by_contra hc
      have hc' : r1.2.ok = false := by
        cases hb : r1.2.ok
        · rfl
        · exact absurd hb hc
      have := pySub_ok_absorb matchGitAt (git_repl env n) (git_repl_ok_absorb env n)
        r1.1 r1.2 hc'
      rw [h] at this
      simp at this
    have hfile_eq : pySub matchFileAt (file_repl env (n + 1)) t s = r1 :=
      pySub_congr matchFileAt (file_repl env (n + 1)) (file_repl env n)
        (file_repl_ok_absorb env n) hagF t s hr1ok
    rw [hfile_eq]
    exact pySub_congr matchGitAt (git_repl env (n + 1)) (git_repl env n)
      (git_repl_ok_absorb env n) hagG r1.1 r1.2 h

/-- Fuel-independence: an expansion that finishes within budget `n` gives
the same result for every budget of at least `n`. -/
theorem unroll_stab (env : Env) (n : Nat) (t : List Char) (s : St)
    (h : (unroll_prompt env n t s).2.ok = true) :
    ∀ m, n ≤ m → unroll_prompt env m t s = unroll_prompt env n t s := by
  intro m hm
  obtain ⟨k, rfl⟩ := Nat.exists_eq_add_of_le hm
  clear hm
  induction k with
  | zero => rfl
  | succ k ih =>
    have hok : (unroll_prompt env (n + k) t s).2.ok = true := by
      rw [ih]
      exact h
    have : n + (k + 1) = (n + k) + 1 := rfl
    rw [this, unroll_stab_succ env (n + k) t s hok, ih]

/-- If a replay starts within budget and ends out of budget, and every
replacement that runs out of budget has recorded at least `N` new keys,
then the replay records at least `N` new keys. -/
theorem foldSub_gain {α : Type} (R : α → List Char → St → List Char × St) (N : Nat)
    (hmono : ∀ a m s', ∃ d, (R a m s').2.visited = d ++ s'.visited)
    (habs : ∀ a m s', s'.ok = false → (R a m s').2.ok = false)
    (hgain : ∀ a m s', s'.ok = true → (R a m s').2.ok = false →
      s'.visited.length + N ≤ (R a m s').2.visited.length) :
    ∀ (ms : List (List Char × α × List Char)) (tail : List Char) (s : St),
      s.ok = true → (foldSub R ms tail s).2.ok = false →
      s.visited.length + N ≤ (foldSub R ms tail s).2.visited.length := by
  intro ms
  induction ms with
  | nil =>
    intro tail s hs hend
    exact absurd (hs.symm.trans hend) (by simp)
  | cons p ms ih =>
    obtain ⟨g, a, m⟩ := p
    intro tail s hs hend
    simp only [foldSub] at hend ⊢
    cases hp : (R a m s).2.ok with
    | true =>
      have h1 := ih tail (R a m s).2 hp hend
      obtain ⟨d, hd⟩ := hmono a m s
      have h2 : s.visited.length ≤ (R a m s).2.visited.length := by
        rw [hd]
        simp
      omega
    | false =>
      have h1 := hgain a m s hs hp
      obtain ⟨d, hd⟩ := foldSub_visited_mono R hmono ms tail (R a m s).2
      have h2 : (R a m s).2.visited.length ≤
          (foldSub R ms tail (R a m s).2).2.visited.length := by
        rw [hd]
        simp
      omega

theorem pySub_gain {α : Type} (M : List Char → Option (α × List Char × List Char))
    (R : α → List Char → St → List Char × St) (N : Nat)
    (hmono : ∀ a m s', ∃ d, (R a m s').2.visited = d ++ s'.visited)
    (habs : ∀ a m s', s'.ok = false → (R a m s').2.ok = false)
    (hgain : ∀ a m s', s'.ok = true → (R a m s').2.ok = false →
      s'.visited.length + N ≤ (R a m s').2.visited.length)
    (t : List Char) (s : St) (hs : s.ok = true) (hend : (pySub M R t s).2.ok = false) :
    s.visited.length + N ≤ (pySub M R t s).2.visited.length := by
  rw [pySub_eq_fold] at hend ⊢
  exact foldSub_gain R N hmono habs hgain _ _ s hs hend

/-- An expansion that starts within budget and runs out of fuel `n` has
resolved at least `n` distinct directives: every level of the recursion
that exhausts the budget was entered through a fresh key. -/
theorem unroll_gain (env : Env) :
    ∀ (n : Nat) (t : List Char) (s : St), s.ok = true →
      (unroll_prompt env n t s).2.ok = false →
      s.visited.length + n ≤ (unroll_prompt env n t s).2.visited.length := by
  intro n
  induction n with
  | zero =>
    intro t s _ _
    simp [unroll_zero]
  | succ n ih =>
    have hgainF : ∀ f m s', St.ok s' = true → (file_repl env n f m s').2.ok = false →
        s'.visited.length + (n + 1) ≤ (file_repl env n f m s').2.visited.length := by
      intro f m s' hs hend
      unfold file_repl at hend ⊢
      by_cases hv : Key.file f ∈ s'.visited
      · simp only [hv, ite_true] at hend
        exact absurd (hs.symm.trans hend) (by simp)
      · simp only [hv, ite_false] at hend ⊢
        have := ih (file_content env f) { s' with visited := Key.file f :: s'.visited } hs hend
        simp only [List.length_cons] at this
        omega
    have hgainG : ∀ a m s', St.ok s' = true → (git_repl env n a m s').2.ok = false →
        s'.visited.length + (n + 1) ≤ (git_repl env n a m s').2.visited.length := by
      intro a m s' hs hend
      unfold git_repl at hend ⊢
      by_cases hv : Key.git a.1 a.2.1 a.2.2 ∈ s'.visited
      · simp only [hv, ite_true] at hend
        exact absurd (hs.symm.trans hend) (by simp)
      · simp only [hv, ite_false] at hend ⊢
        have := ih (git_content env a.1 a.2.1 a.2.2)
          { s' with visited := Key.git a.1 a.2.1 a.2.2 :: s'.visited } hs hend
        simp only [List.length_cons] at this
        omega
    intro t s hs hend
    rw [unroll_succ2 env n t s] at hend ⊢
    set r1 := pySub matchFileAt (file_repl env n) t s with hr1
    cases hrok : r1.2.ok with
    | true =>
      have h1 := pySub_gain matchGitAt (git_repl env n) (n + 1)
        (git_repl_visited_mono env n) (git_repl_ok_absorb env n) hgainG
        r1.1 r1.2 hrok hend
      obtain ⟨d, hd⟩ := pySub_visited_mono matchFileAt (file_repl env n)
        (file_repl_visited_mono env n) t s
      rw [← hr1] at hd
      have h2 : s.visited.length ≤ r1.2.visited.length := by
        rw [hd]
        simp
      omega
    | false =>
      have h1 := pySub_gain matchFileAt (file_repl env n) (n + 1)
        (file_repl_visited_mono env n) (file_repl_ok_absorb env n) hgainF
        t s hs hrok
      rw [← hr1] at h1
      obtain ⟨d, hd⟩ := pySub_visited_mono matchGitAt (git_repl env n)
        (git_repl_visited_mono env n) r1.1 r1.2
      have h2 : r1.2.visited.length ≤
          (pySub matchGitAt (git_repl env n) r1.1 r1.2).2.visited.length := by
        rw [hd]
        simp
      omega

theorem stripPfx_some : ∀ (p cs r : List Char), stripPfx p cs = some r → cs = p ++ r := by
  intro p
  induction p with
  | nil =>
    intro cs r h
    simp only [stripPfx, Option.some.injEq] at h
    simp [h]
  | cons p ps ih =>
    intro cs r h
    cases cs with
    | nil => simp [stripPfx] at h
    | cons c cs' =>
      simp only [stripPfx] at h
      by_cases hpc : p = c
      · rw [if_pos hpc] at h
        rw [ih cs' r h, hpc]
        rfl
      · rw [if_neg hpc] at h
        cases h

theorem stripPfx_append : ∀ (p r : List Char), stripPfx p (p ++ r) = some r := by
  intro p
  induction p with
  | nil => intro r; rfl
  | cons p ps ih => intro r; simp [stripPfx, ih]

theorem takeWhile_middle (P : Char → Bool) :
    ∀ (f : List Char) (x : Char) (y : List Char),
      (∀ c ∈ f, P c = true) → P x = false → (f ++ x :: y).takeWhile P = f := by
  intro f
  induction f with
  | nil =>
    intro x y _ hx
    simp [List.takeWhile_cons, hx]
  | cons c f' ih =>
    intro x y h hx
    have hc : P c = true := h c (List.mem_cons_self c f')
    simp only [List.cons_append, List.takeWhile_cons, hc, if_true]
    rw [ih x y (fun d hd => h d (List.mem_cons_of_mem c hd)) hx]

theorem dropWhile_middle (P : Char → Bool) :
    ∀ (f : List Char) (x : Char) (y : List Char),
      (∀ c ∈ f, P c = true) → P x = false → (f ++ x :: y).dropWhile P = x :: y := by
  intro f
  induction f with
  | nil =>
    intro x y _ hx
    simp [List.dropWhile_cons, hx]
  | cons c f' ih =>
    intro x y h hx
    have hc : P c = true := h c (List.mem_cons_self c f')
    simp only [List.cons_append, List.dropWhile_cons, hc, if_true]
    exact ih x y (fun d hd => h d (List.mem_cons_of_mem c hd)) hx

/-- A successful file match splits its input as matched text followed by
the rest, and the matched text extends the keyword. -/
theorem matchFileAt_some_decomp (cs a m rest : List Char)
    (h : matchFileAt cs = some (a, m, rest)) :
    cs = m ++ rest ∧ ∃ z, m = fileKeyword ++ z := by
  unfold matchFileAt at h
  split at h
  · cases h
  next r1 hp =>
    dsimp only at h
    split at h
    next r3 hr2 =>
      split at h
      · cases h
      next hseg =>
        split at h
        next rest' hr4 =>
          injection h with h'
          injection h' with h1 h2
          injection h2 with h2 h3
          subst h2
          subst h3
          constructor
          · have hcs : cs = fileKeyword ++ r1 := stripPfx_some _ _ _ hp
            have e1 := List.takeWhile_append_dropWhile isPySpace r1
            rw [hr2] at e1
            have e3 := List.takeWhile_append_dropWhile (fun c => c != ')') r3
            rw [hr4] at e3
            generalize hG1 : List.takeWhile isPySpace r1 = tw at *
            generalize hG2 : List.takeWhile (fun c => c != ')') r3 = seg at *
            rw [hcs, ← e1, ← e3]
            simp
          · exact ⟨_, rfl⟩
        · cases h
    · cases h

/-- A successful git match splits its input as matched text followed by
the rest, and the matched text extends the keyword. -/
theorem matchGitAt_some_decomp (cs : List Char)
    (a : List Char × List Char × List Char) (m rest : List Char)
    (h : matchGitAt cs = some (a, m, rest)) :
    cs = m ++ rest ∧ ∃ z, m = gitKeyword ++ z := by
  unfold matchGitAt at h
  split at h
  · cases h
  next r1 hp =>
    dsimp only at h
    split at h
    next r3 hr2 =>
      split at h
      · cases h
      next hseg1 =>
        split at h
        next r5 hr4 =>
          split at h
          · cases h
          next hseg2 =>
            split at h
            next r7 hr6 =>
              split at h
              · cases h
              next hseg3 =>
                split at h
                next rest' hr8 =>
                  injection h with h'
                  injection h' with h1 h2
                  injection h2 with h2 h3
                  subst h2
                  subst h3
                  constructor
                  · have hcs : cs = gitKeyword ++ r1 := stripPfx_some _ _ _ hp
                    have e1 := List.takeWhile_append_dropWhile isPySpace r1
                    rw [hr2] at e1
                    have e3 := List.takeWhile_append_dropWhile (fun c => c != ',') r3
                    rw [hr4] at e3
                    have e5 := List.takeWhile_append_dropWhile (fun c => c != ',') r5
                    rw [hr6] at e5
                    have e7 := List.takeWhile_append_dropWhile (fun c => c != ')') r7
                    rw [hr8] at e7
                    generalize hG1 : List.takeWhile isPySpace r1 = tw at *
                    generalize hG2 : List.takeWhile (fun c => c != ',') r3 = seg1 at *
                    generalize hG3 : List.takeWhile (fun c => c != ',') r5 = seg2 at *
                    generalize hG4 : List.takeWhile (fun c => c != ')') r7 = seg3 at *
                    rw [hcs, ← e1, ← e3, ← e5, ← e7]
                    simp
                  · exact ⟨_, rfl⟩
                · cases h
            · cases h
        · cases h
    · cases h

theorem matchFileAt_lt (cs a m rest : List Char)
    (h : matchFileAt cs = some (a, m, rest)) : rest.length < cs.length := by
  obtain ⟨hcs, z, hm⟩ := matchFileAt_some_decomp cs a m rest h
  have hk : 0 < fileKeyword.length := by decide
  rw [hcs, hm]
  simp only [List.length_append]
  omega

theorem matchGitAt_lt (cs : List Char) (a : List Char × List Char × List Char)
    (m rest : List Char) (h : matchGitAt cs = some (a, m, rest)) :
    rest.length < cs.length := by
  obtain ⟨hcs, z, hm⟩ := matchGitAt_some_decomp cs a m rest h
  have hk : 0 < gitKeyword.length := by decide
  rw [hcs, hm]
  simp only [List.length_append]
  omega

theorem matchFileAt_head (cs : List Char) (r : List Char × List Char × List Char)
    (h : matchFileAt cs = some r) : ∃ z, cs = '[' :: '#' :: z := by
  obtain ⟨a, m, rest⟩ := r
  obtain ⟨hcs, z, hm⟩ := matchFileAt_some_decomp cs a m rest h
  exact ⟨"PLACEHOLDER_LOAD_FROM_FILE".data ++ z ++ rest, by rw [hcs, hm]; rfl⟩

theorem matchGitAt_head (cs : List Char)
    (r : (List Char × List Char × List Char) × List Char × List Char)
    (h : matchGitAt cs = some r) : ∃ z, cs = '[' :: '#' :: z := by
  obtain ⟨a, m, rest⟩ := r
  obtain ⟨hcs, z, hm⟩ := matchGitAt_some_decomp cs a m rest h
  exact ⟨"PLACEHOLDER_LOAD_FILE_FROM_GIT".data ++ z ++ rest, by rw [hcs, hm]; rfl⟩

/-- The scan is independent of the step count once it covers the text. -/
theorem pyScanAux_fuel {α : Type} (M : List Char → Option (α × List Char × List Char))
    (hM : ∀ cs a m rest, M cs = some (a, m, rest) → rest.length < cs.length) :
    ∀ (n : Nat) (t : List Char), t.length ≤ n → pyScanAux M n t = pyScanAux M t.length t := by
  intro n
  induction n using Nat.strong_induction_on with
  | _ n ih =>
    intro t ht
    cases t with
    | nil => rw [pyScanAux_nil, pyScanAux_nil]
    | cons c cs =>
      cases n with
      | zero => simp at ht
      | succ n =>
        have hl : (c :: cs).length = cs.length + 1 := rfl
        rw [hl] at ht
        rw [hl, pyScanAux_cons, pyScanAux_cons]
        have hcs : cs.length ≤ n := Nat.succ_le_succ_iff.mp ht
        cases hm : M (c :: cs) with
        | some r =>
          obtain ⟨a, m, rest⟩ := r
          have h1 : rest.length < cs.length + 1 := by
            rw [← hl]
            exact hM _ _ _ _ hm
          have e1 := ih n (Nat.lt_succ_self n) rest (by omega)
          have e2 := ih cs.length (by omega) rest (by omega)
          simp only [e1, e2]
        | none =>
          have e1 := ih n (Nat.lt_succ_self n) cs hcs
          simp only [e1]

theorem prependGap_nil_gap {α : Type} (p : List (List Char × α × List Char) × List Char) :
    prependGap [] p = p := by
  obtain ⟨ms, tail⟩ := p
  cases ms with
  | nil => simp [prependGap]
  | cons q ms =>
    obtain ⟨g0, a, m⟩ := q
    simp [prependGap]

theorem prependGap_append {α : Type} (g1 g2 : List Char)
    (p : List (List Char × α × List Char) × List Char) :
    prependGap (g1 ++ g2) p = prependGap g1 (prependGap g2 p) := by
  obtain ⟨ms, tail⟩ := p
  cases ms with
  | nil => simp [prependGap]
  | cons q ms =>
    obtain ⟨g0, a, m⟩ := q
    simp [prependGap]

theorem noMark_tail (c : Char) (g : List Char) (h : noMark (c :: g) = true) :
    noMark g = true := by
  cases g with
  | nil => rfl
  | cons d g' =>
    simp only [noMark, Bool.and_eq_true] at h
    exact h.2

/-- Scanning walks over a mark-free gap: no match can start inside it,
including at its boundary with the following text (which is empty or
starts with `[`). -/
theorem pyScanAux_walk {α : Type} (M : List Char → Option (α × List Char × List Char))
    (hhead : ∀ cs r, M cs = some r → ∃ z, cs = '[' :: '#' :: z) :
    ∀ (g X : List Char), noMark g = true → (X = [] ∨ ∃ z, X = '[' :: z) →
      pyScanAux M (g ++ X).length (g ++ X) = prependGap g (pyScanAux M X.length X) := by
  intro g
  induction g with
  | nil =>
    intro X _ _
    rw [List.nil_append, prependGap_nil_gap]
  | cons c g' ih =>
    intro X hnm hX
    have hno : M (c :: (g' ++ X)) = none := by
      cases hm : M (c :: (g' ++ X)) with
      | none => rfl
      | some r =>
        obtain ⟨z, hz⟩ := hhead _ r hm
        injection hz with hc hz2
        subst hc
        cases g' with
        | nil =>
          rw [List.nil_append] at hz2
          cases hX with
          | inl h0 =>
            rw [h0] at hz2
            cases hz2
          | inr h0 =>
            obtain ⟨z', hz'⟩ := h0
            rw [hz'] at hz2
            injection hz2 with hh _
            cases hh
        | cons d g'' =>
          rw [List.cons_append] at hz2
          injection hz2 with hd _
          subst hd
          simp [noMark] at hnm
    rw [List.cons_append]
    rw [show (c :: (g' ++ X)).length = (g' ++ X).length + 1 from rfl]
    rw [pyScanAux_cons]
    simp only [hno]
    rw [ih X (noMark_tail c g' hnm) hX]
    rw [show c :: g' = [c] ++ g' from rfl, prependGap_append]
    generalize prependGap g' (pyScanAux M X.length X) = q
    obtain ⟨ms, tail⟩ := q
    cases ms with
    | nil => simp [prependGap]
    | cons p ms =>
      obtain ⟨g0, a, m⟩ := p
      simp [prependGap]

/-- Scanning at a match: the match is emitted and scanning resumes after
the matched text. -/
theorem pyScanAux_step {α : Type} (M : List Char → Option (α × List Char × List Char))
    (hM : ∀ cs a m rest, M cs = some (a, m, rest) → rest.length < cs.length)
    (d Y : List Char) (a : α) (hm : M (d ++ Y) = some (a, d, Y)) (hd : d ≠ []) :
    pyScanAux M (d ++ Y).length (d ++ Y) =
      (([], a, d) :: (pyScanAux M Y.length Y).1, (pyScanAux M Y.length Y).2) := by
  cases d with
  | nil => exact absurd rfl hd
  | cons c d' =>
    rw [List.cons_append] at hm ⊢
    rw [show (c :: (d' ++ Y)).length = (d' ++ Y).length + 1 from rfl]
    rw [pyScanAux_cons]
    simp only [hm]
    rw [pyScanAux_fuel M hM (d' ++ Y).length Y
      (by simp only [List.length_append]; omega)]

/-- The canonical file directive text matches at its own span, capturing
the trimmed filename, whatever follows it. -/
theorem matchFileAt_canon (ws f Y : List Char)
    (hws : ∀ c ∈ ws, isPySpace c = true) (hf : f ≠ []) (hfp : ')' ∉ f) :
    matchFileAt (dFile ws f ++ Y) = some (pyStrip f, dFile ws f, Y) := by
  have hfb : ∀ c ∈ f, (c != ')') = true := by
    intro c hc
    have hne : c ≠ ')' := fun he => hfp (he ▸ hc)
    simp [hne]
  have e0 : dFile ws f ++ Y = fileKeyword ++ (ws ++ '(' :: (f ++ ')' :: ']' :: Y)) := by
    unfold dFile
    simp
  have e1 := takeWhile_middle isPySpace ws '(' (f ++ ')' :: ']' :: Y) hws (by decide)
  have e2 := dropWhile_middle isPySpace ws '(' (f ++ ')' :: ']' :: Y) hws (by decide)
  have e3 := takeWhile_middle (fun c => c != ')') f ')' (']' :: Y) hfb (by decide)
  have e4 := dropWhile_middle (fun c => c != ')') f ')' (']' :: Y) hfb (by decide)
  have e5 : f.isEmpty = false := by
    cases f with
    | nil => exact absurd rfl hf
    | cons => rfl
  rw [e0]
  unfold matchFileAt
  rw [stripPfx_append]
  dsimp only
  rw [e1, e2]
  simp only [e3, e4, e5, Bool.false_eq_true, if_false, ite_false]
  unfold dFile
  rfl

/-- The canonical git directive text matches at its own span. -/
theorem matchGitAt_canon (ws u l b Y : List Char)
    (hws : ∀ c ∈ ws, isPySpace c = true)
    (hu : u ≠ []) (hup : ',' ∉ u)
    (hl : l ≠ []) (hlp : ',' ∉ l)
    (hb : b ≠ []) (hbp : ')' ∉ b) :
    matchGitAt (dGit ws u l b ++ Y) =
      some ((pyStrip u, pyStrip l, pyStrip b), dGit ws u l b, Y) := by
  have hub : ∀ c ∈ u, (c != ',') = true := by
    intro c hc
    have hne : c ≠ ',' := fun he => hup (he ▸ hc)
    simp [hne]
  have hlb : ∀ c ∈ l, (c != ',') = true := by
    intro c hc
    have hne : c ≠ ',' := fun he => hlp (he ▸ hc)
    simp [hne]
  have hbb : ∀ c ∈ b, (c != ')') = true := by
    intro c hc
    have hne : c ≠ ')' := fun he => hbp (he ▸ hc)
    simp [hne]
  have e0 : dGit ws u l b ++ Y =
      gitKeyword ++ (ws ++ '(' :: (u ++ ',' :: (l ++ ',' :: (b ++ ')' :: ']' :: Y)))) := by
    unfold dGit
    simp
  have e1 := takeWhile_middle isPySpace ws '('
    (u ++ ',' :: (l ++ ',' :: (b ++ ')' :: ']' :: Y))) hws (by decide)
  have e2 := dropWhile_middle isPySpace ws '('
    (u ++ ',' :: (l ++ ',' :: (b ++ ')' :: ']' :: Y))) hws (by decide)
  have e3 := takeWhile_middle (fun c => c != ',') u ','
    (l ++ ',' :: (b ++ ')' :: ']' :: Y)) hub (by decide)
  have e4 := dropWhile_middle (fun c => c != ',') u ','
    (l ++ ',' :: (b ++ ')' :: ']' :: Y)) hub (by decide)
  have e5 := takeWhile_middle (fun c => c != ',') l ','
    (b ++ ')' :: ']' :: Y) hlb (by decide)
  have e6 := dropWhile_middle (fun c => c != ',') l ','
    (b ++ ')' :: ']' :: Y) hlb (by decide)
  have e7 := takeWhile_middle (fun c => c != ')') b ')' (']' :: Y) hbb (by decide)
  have e8 := dropWhile_middle (fun c => c != ')') b ')' (']' :: Y) hbb (by decide)
  have eu : u.isEmpty = false := by
    cases u with
    | nil => exact absurd rfl hu
    | cons => rfl
  have el : l.isEmpty = false := by
    cases l with
    | nil => exact absurd rfl hl
    | cons => rfl
  have eb : b.isEmpty = false := by
    cases b with
    | nil => exact absurd rfl hb
    | cons => rfl
  rw [e0]
  unfold matchGitAt
  rw [stripPfx_append]
  dsimp only
  rw [e1, e2]
  simp only [e3, e4, eu, e5, e6, el, e7, e8, eb, Bool.false_eq_true, if_false, ite_false]
  unfold dGit
  rfl

/-- Scanning a text made of two well-formed directives separated by
mark-free gaps yields exactly those two matches, each at its own span. -/
theorem pyScan_two {α : Type} (M : List Char → Option (α × List Char × List Char))
    (hM : ∀ cs a m rest, M cs = some (a, m, rest) → rest.length < cs.length)
    (hhead : ∀ cs r, M cs = some r → ∃ z, cs = '[' :: '#' :: z)
    (pre d1 mid d2 post : List Char) (a1 a2 : α)
    (hpre : noMark pre = true) (hmid : noMark mid = true) (hpost : noMark post = true)
    (hm1 : M (d1 ++ (mid ++ (d2 ++ post))) = some (a1, d1, mid ++ (d2 ++ post)))
    (hm2 : M (d2 ++ post) = some (a2, d2, post))
    (hd1 : ∃ z, d1 = '[' :: z) (hd2 : ∃ z, d2 = '[' :: z) :
    pyScan M (pre ++ d1 ++ mid ++ d2 ++ post) = ([(pre, a1, d1), (mid, a2, d2)], post) := by
  have hd1n : d1 ≠ [] := by
    obtain ⟨z, hz⟩ := hd1
    rw [hz]
    exact List.cons_ne_nil _ _
  have hd2n : d2 ≠ [] := by
    obtain ⟨z, hz⟩ := hd2
    rw [hz]
    exact List.cons_ne_nil _ _
  have hX1 : d1 ++ (mid ++ (d2 ++ post)) = [] ∨ ∃ z, d1 ++ (mid ++ (d2 ++ post)) = '[' :: z := by
    obtain ⟨z, hz⟩ := hd1
    exact Or.inr ⟨z ++ (mid ++ (d2 ++ post)), by rw [hz]; rfl⟩
  have hX2 : d2 ++ post = [] ∨ ∃ z, d2 ++ post = '[' :: z := by
    obtain ⟨z, hz⟩ := hd2
    exact Or.inr ⟨z ++ post, by rw [hz]; rfl⟩
  have e1 := pyScanAux_walk M hhead pre (d1 ++ (mid ++ (d2 ++ post))) hpre hX1
  have e2 := pyScanAux_step M hM d1 (mid ++ (d2 ++ post)) a1 hm1 hd1n
  have e3 := pyScanAux_walk M hhead mid (d2 ++ post) hmid hX2
  have e4 := pyScanAux_step M hM d2 post a2 hm2 hd2n
  have e5 := pyScanAux_walk M hhead post [] hpost (Or.inl rfl)
  rw [List.append_nil] at e5
  rw [pyScanAux_nil] at e5
  have htext : pre ++ d1 ++ mid ++ d2 ++ post
      = pre ++ (d1 ++ (mid ++ (d2 ++ post))) := by simp
  unfold pyScan
  rw [htext, e1, e2, e3, e4, e5]
  simp [prependGap]

/-- C3: the claim says the derived repository short name is the last path
segment with `.git` stripped for both URL shapes, identically — as the
function's own docstring promises.  The code disagrees: the SSH branch
splits only on `:` and never on `/`, so an SSH-style URL keeps its owner
segment.  This theorem evaluates the code at the docstring's own example
pair and shows the two shapes disagree. -/
theorem c3_get_repo_name_ssh_divergence :
    get_repo_name "git@github.com:username/repo.git".data = "username/repo".data ∧
    get_repo_name "https://github.com/username/repo.git".data = "repo".data ∧
    "username/repo".data ≠ "repo".data := by
  decide

/-- C5: a text in which neither directive form occurs anywhere is returned
unchanged by `unroll_prompt`, for every fuel and every starting state. -/
theorem c5_no_directives_id (env : Env) (fuel : Nat) (t : List Char) (s : St)
    (hf : (pyScan matchFileAt t).1 = []) (hg : (pyScan matchGitAt t).1 = []) :
    (unroll_prompt env fuel t s).1 = t :=
  (unroll_no_matches env fuel t s hf hg).1

theorem c5_no_directives_id_witness :
    (pyScan matchFileAt "Tell me about polar bears (in 3 lines).".data).1 = [] ∧
    (pyScan matchGitAt "Tell me about polar bears (in 3 lines).".data).1 = [] ∧
    (unroll_prompt envW 7 "Tell me about polar bears (in 3 lines).".data ⟨[], true⟩).1
      = "Tell me about polar bears (in 3 lines).".data :=
  ⟨by decide, by decide,
    c5_no_directives_id envW 7 "Tell me about polar bears (in 3 lines).".data ⟨[], true⟩
      (by decide) (by decide)⟩

/-- C7: the repository cache is idempotent with respect to cloning: a call
for a URL whose derived path has no clone performs a clone; a call for a
URL whose derived path already has a clone performs a fetch and leaves the
store unchanged; and after any call, a further call for the same URL
performs only a fetch and leaves the store unchanged — never a second
clone. -/
theorem c7_ensure_idempotent
    (world : List Char → List Char → List Char → Option (List Char))
    (store : RepoStore) (url loc br loc2 br2 : List Char) :
    (lookupFs store.cloned (repo_path url) = none →
      (unroll_prompt_from_git world store url loc br).2.1 = GitAction.clone) ∧
    (∀ o, lookupFs store.cloned (repo_path url) = some o →
      (unroll_prompt_from_git world store url loc br).2.1 = GitAction.fetch ∧
      (unroll_prompt_from_git world store url loc br).1 = store) ∧
    ((unroll_prompt_from_git world (unroll_prompt_from_git world store url loc br).1
        url loc2 br2).2.1 = GitAction.fetch ∧
      (unroll_prompt_from_git world (unroll_prompt_from_git world store url loc br).1
        url loc2 br2).1 = (unroll_prompt_from_git world store url loc br).1) := by
  refine ⟨fun h => ?_, fun o h => ?_, ?_⟩
  · unfold unroll_prompt_from_git
    dsimp only
    rw [h]
  · unfold unroll_prompt_from_git
    dsimp only
    rw [h]
    exact ⟨rfl, rfl⟩
  · unfold unroll_prompt_from_git
    dsimp only
    cases h : lookupFs store.cloned (repo_path url) with
    | some o =>
      dsimp only
      rw [h]
      exact ⟨rfl, rfl⟩
    | none =>
      dsimp only
      have hself : lookupFs ((repo_path url, url) :: store.cloned) (repo_path url)
          = some url := by
        unfold lookupFs
        rw [if_pos rfl]
      rw [hself]
      exact ⟨rfl, rfl⟩

theorem c7_ensure_idempotent_witness :
    lookupFs (RepoStore.mk []).cloned (repo_path "https://hostone/x/repo.git".data) = none ∧
    (unroll_prompt_from_git worldW ⟨[]⟩ "https://hostone/x/repo.git".data
      "doc.md".data "main".data).2.1 = GitAction.clone ∧
    ((unroll_prompt_from_git worldW
        (unroll_prompt_from_git worldW ⟨[]⟩ "https://hostone/x/repo.git".data
          "doc.md".data "main".data).1
        "https://hostone/x/repo.git".data "doc.md".data "dev".data).2.1 = GitAction.fetch ∧
      (unroll_prompt_from_git worldW
        (unroll_prompt_from_git worldW ⟨[]⟩ "https://hostone/x/repo.git".data
          "doc.md".data "main".data).1
        "https://hostone/x/repo.git".data "doc.md".data "dev".data).1 =
        (unroll_prompt_from_git worldW ⟨[]⟩ "https://hostone/x/repo.git".data
          "doc.md".data "main".data).1) := by
  obtain ⟨h1, _h2, h3⟩ := c7_ensure_idempotent worldW ⟨[]⟩
    "https://hostone/x/repo.git".data "doc.md".data "main".data "doc.md".data "dev".data
  exact ⟨by decide, h1 (by decide), h3⟩

/-- C9: two distinct URLs with equal derived short names share the same
local clone path; once the first is cloned, a request for the second only
fetches the existing clone and serves content from the first URL's
repository (the clone's origin), not from its own. -/
theorem c9_repo_name_aliasing
    (world : List Char → List Char → List Char → Option (List Char))
    (store : RepoStore) (u1 u2 l b l2 b2 : List Char)
    (hdist : u1 ≠ u2)
    (hname : get_repo_name u1 = get_repo_name u2)
    (hfresh : lookupFs store.cloned (repo_path u1) = none) :
    repo_path u1 = repo_path u2 ∧
    ((unroll_prompt_from_git world (unroll_prompt_from_git world store u1 l b).1
        u2 l2 b2).2.1 = GitAction.fetch ∧
      (unroll_prompt_from_git world (unroll_prompt_from_git world store u1 l b).1
        u2 l2 b2).2.2 = world u1 l2 b2) := by
  have hpath : repo_path u1 = repo_path u2 := by
    unfold repo_path
    rw [hname]
  refine ⟨hpath, ?_⟩
  unfold unroll_prompt_from_git
  dsimp only
  rw [hfresh]
  have hself : lookupFs ((repo_path u1, u1) :: store.cloned) (repo_path u2)
      = some u1 := by
    unfold lookupFs
    rw [if_pos hpath]
  rw [hself]
  exact ⟨rfl, rfl⟩

theorem c9_repo_name_aliasing_witness :
    get_repo_name "https://hostone/x/repo.git".data
      = get_repo_name "https://hosttwo/y/repo.git".data ∧
    ((unroll_prompt_from_git worldW
        (unroll_prompt_from_git worldW ⟨[]⟩ "https://hostone/x/repo.git".data
          "a.md".data "main".data).1
        "https://hosttwo/y/repo.git".data "b.md".data "main".data).2.1 = GitAction.fetch ∧
      (unroll_prompt_from_git worldW
        (unroll_prompt_from_git worldW ⟨[]⟩ "https://hostone/x/repo.git".data
          "a.md".data "main".data).1
        "https://hosttwo/y/repo.git".data "b.md".data "main".data).2.2 =
        worldW "https://hostone/x/repo.git".data "b.md".data "main".data) ∧
    worldW "https://hostone/x/repo.git".data "b.md".data "main".data ≠
      worldW "https://hosttwo/y/repo.git".data "b.md".data "main".data := by
  obtain ⟨_h1, h2⟩ := c9_repo_name_aliasing worldW ⟨[]⟩
    "https://hostone/x/repo.git".data "https://hosttwo/y/repo.git".data
    "a.md".data "main".data "b.md".data "main".data
    (by decide) (by decide) (by decide)
  exact ⟨by decide, h2, by decide⟩

/-- C10: for an absolute filename (leading `/`), `unroll_prompt_from_file`
reads the file at that very path: `os.path.join` discards the base
directory, so neither the `dir` argument nor the `ASSISTANTS_DIR` value
influences the result. -/
theorem c10_absolute_path_ignores_base (env : Env) (dir : Option (List Char))
    (f : List Char) (habs : f.head? = some '/') :
    unroll_prompt_from_file env dir f = lookupFs env.fs f := by
  unfold unroll_prompt_from_file os_path_join
  dsimp only
  rw [if_pos habs]

theorem c10_absolute_path_ignores_base_witness :
    ("/abs/creds.txt".data.head? = some '/') ∧
    unroll_prompt_from_file envW (some "ignored/dir".data) "/abs/creds.txt".data
      = lookupFs envW.fs "/abs/creds.txt".data ∧
    lookupFs envW.fs "/abs/creds.txt".data = some "secret30".data :=
  ⟨by decide,
    c10_absolute_path_ignores_base envW (some "ignored/dir".data) "/abs/creds.txt".data
      (by decide),
    by decide⟩

/-- Every key scanned in a pass ends up in the visited list of the pass's
final state, provided each replacement records its own key and only grows
the visited list. -/
theorem foldSub_key_mem {α : Type} (R : α → List Char → St → List Char × St)
    (keyOf : α → Key)
    (hmono : ∀ a m s', ∃ d, (R a m s').2.visited = d ++ s'.visited)
    (hR : ∀ a m s', keyOf a ∈ (R a m s').2.visited) :
    ∀ (ms : List (List Char × α × List Char)) (tail : List Char) (s : St)
      (g : List Char) (a : α) (m : List Char), (g, a, m) ∈ ms →
      keyOf a ∈ (foldSub R ms tail s).2.visited := by
  intro ms
  induction ms with
  | nil =>
    intro tail s g a m hmem
    cases hmem
  | cons p ms ih =>
    obtain ⟨g0, a0, m0⟩ := p
    intro tail s g a m hmem
    rcases List.mem_cons.mp hmem with hmem | hmem
    · injection hmem with hg hrest
      injection hrest with ha hm
      subst ha
      obtain ⟨d, hd⟩ := foldSub_visited_mono R hmono ms tail (R a m0 s).2
      simp only [foldSub, hd]
      exact List.mem_append_right d (hR a m0 s)
    · simp only [foldSub]
      exact ih tail (R a0 m0 s).2 g a m hmem

theorem file_repl_key_mem (env : Env) (n : Nat) :
    ∀ (f m : List Char) (s' : St), Key.file f ∈ (file_repl env n f m s').2.visited := by
  intro f m s'
  unfold file_repl
  by_cases hv : Key.file f ∈ s'.visited
  · simpa [hv] using hv
  · simp only [hv, ite_false]
    obtain ⟨d, hd⟩ := unroll_visited_mono env n (file_content env f)
      { s' with visited := Key.file f :: s'.visited }
    rw [hd]
    exact List.mem_append_right d (List.mem_cons_self _ _)

/-- C4: in a successor step, `unroll_prompt` is exactly the git pass run
over the text and state produced by the completed file pass; by the end of
that file pass every file directive occurring in the input text has its key
in the visited set (it was just resolved, or had been resolved earlier in
the call tree); and the git pass only adds keys on top of those. -/
theorem c4_file_pass_before_git_pass (env : Env) (n : Nat) (t : List Char) (s : St) :
    unroll_prompt env (n + 1) t s =
      pySub matchGitAt (git_repl env n)
        (pySub matchFileAt (file_repl env n) t s).1
        (pySub matchFileAt (file_repl env n) t s).2 ∧
    (∀ (g f d : List Char), (g, f, d) ∈ (pyScan matchFileAt t).1 →
      Key.file f ∈ (pySub matchFileAt (file_repl env n) t s).2.visited) ∧
    (∃ dg, (unroll_prompt env (n + 1) t s).2.visited
        = dg ++ (pySub matchFileAt (file_repl env n) t s).2.visited) := by
  refine ⟨unroll_succ2 env n t s, ?_, ?_⟩
  · intro g f d hmem
    rw [pySub_eq_fold]
    exact foldSub_key_mem (file_repl env n) Key.file (file_repl_visited_mono env n)
      (file_repl_key_mem env n) (pyScan matchFileAt t).1 (pyScan matchFileAt t).2 s g f d hmem
  · rw [unroll_succ2 env n t s]
    exact pySub_visited_mono matchGitAt (git_repl env n) (git_repl_visited_mono env n)
      (pySub matchFileAt (file_repl env n) t s).1
      (pySub matchFileAt (file_repl env n) t s).2

theorem c4_file_pass_before_git_pass_witness :
    (("A".data, "c".data, "[#PLACEHOLDER_LOAD_FROM_FILE (c)]".data)
        ∈ (pyScan matchFileAt
            "A[#PLACEHOLDER_LOAD_FROM_FILE (c)]B[#PLACEHOLDER_LOAD_FILE_FROM_GIT (u, f, m)]C".data).1) ∧
    Key.file "c".data ∈ (pySub matchFileAt (file_repl envW 3)
      "A[#PLACEHOLDER_LOAD_FROM_FILE (c)]B[#PLACEHOLDER_LOAD_FILE_FROM_GIT (u, f, m)]C".data
      ⟨[], true⟩).2.visited ∧
    unroll_prompt envW 4
      "A[#PLACEHOLDER_LOAD_FROM_FILE (c)]B[#PLACEHOLDER_LOAD_FILE_FROM_GIT (u, f, m)]C".data
      ⟨[], true⟩ =
      pySub matchGitAt (git_repl envW 3)
        (pySub matchFileAt (file_repl envW 3)
          "A[#PLACEHOLDER_LOAD_FROM_FILE (c)]B[#PLACEHOLDER_LOAD_FILE_FROM_GIT (u, f, m)]C".data
          ⟨[], true⟩).1
        (pySub matchFileAt (file_repl envW 3)
          "A[#PLACEHOLDER_LOAD_FROM_FILE (c)]B[#PLACEHOLDER_LOAD_FILE_FROM_GIT (u, f, m)]C".data
          ⟨[], true⟩).2 := by
  obtain ⟨h1, h2, _h3⟩ := c4_file_pass_before_git_pass envW 3
    "A[#PLACEHOLDER_LOAD_FROM_FILE (c)]B[#PLACEHOLDER_LOAD_FILE_FROM_GIT (u, f, m)]C".data
    ⟨[], true⟩
  exact ⟨by decide, h2 "A".data "c".data "[#PLACEHOLDER_LOAD_FROM_FILE (c)]".data (by decide), h1⟩

/-- C1: within one top-level call (empty initial visited set), (i) the
visited list stays duplicate-free, so every distinct directive key —
structural identity of kind plus trimmed argument fields — is resolved at
most once; (ii) a file or git placeholder whose key is already visited is
left as its verbatim matched text, with the state untouched; (iii) an
expansion that completes within some recursion budget is unchanged by any
larger budget (fuel-independence, i.e. termination of the recursion); and
(iv) an expansion that exhausts budget `n` has resolved at least `n`
distinct directives, so an input reaching only finitely many distinct
directives — even cyclically — completes within some finite budget and
therefore terminates. -/
theorem c1_visited_once_and_terminates (env : Env) :
    (∀ (n : Nat) (t : List Char),
      (unroll_prompt env n t ⟨[], true⟩).2.visited.Nodup) ∧
    (∀ (n : Nat) (f m : List Char) (s : St), Key.file f ∈ s.visited →
      file_repl env n f m s = (m, s)) ∧
    (∀ (n : Nat) (a : List Char × List Char × List Char) (m : List Char) (s : St),
      Key.git a.1 a.2.1 a.2.2 ∈ s.visited → git_repl env n a m s = (m, s)) ∧
    (∀ (n : Nat) (t : List Char) (s : St), (unroll_prompt env n t s).2.ok = true →
      ∀ m, n ≤ m → unroll_prompt env m t s = unroll_prompt env n t s) ∧
    (∀ (n : Nat) (t : List Char) (s : St), s.ok = true →
      (unroll_prompt env n t s).2.ok = false →
      s.visited.length + n ≤ (unroll_prompt env n t s).2.visited.length) := by
  refine ⟨?_, ?_, ?_, ?_, ?_⟩
  · intro n t
    exact unroll_nodup env n t ⟨[], true⟩ List.nodup_nil
  · intro n f m s hv
    unfold file_repl
    rw [if_pos hv]
  · intro n a m s hv
    unfold git_repl
    rw [if_pos hv]
  · intro n t s h m hm
    exact unroll_stab env n t s h m hm
  · intro n t s hs hend
    exact unroll_gain env n t s hs hend

theorem c1_visited_once_and_terminates_witness :
    (unroll_prompt envW 5 "[#PLACEHOLDER_LOAD_FROM_FILE (a)]".data
      ⟨[], true⟩).2.visited.Nodup ∧
    file_repl envW 3 "b".data "[#PLACEHOLDER_LOAD_FROM_FILE (b)]".data
        ⟨[Key.file "b".data], true⟩ =
      ("[#PLACEHOLDER_LOAD_FROM_FILE (b)]".data, ⟨[Key.file "b".data], true⟩) ∧
    git_repl envW 3 ("u".data, "f".data, "m".data)
        "[#PLACEHOLDER_LOAD_FILE_FROM_GIT (u, f, m)]".data
        ⟨[Key.git "u".data "f".data "m".data], true⟩ =
      ("[#PLACEHOLDER_LOAD_FILE_FROM_GIT (u, f, m)]".data,
        ⟨[Key.git "u".data "f".data "m".data], true⟩) ∧
    ((unroll_prompt envW 3 "[#PLACEHOLDER_LOAD_FROM_FILE (a)]".data ⟨[], true⟩).2.ok = true ∧
      unroll_prompt envW 7 "[#PLACEHOLDER_LOAD_FROM_FILE (a)]".data ⟨[], true⟩ =
        unroll_prompt envW 3 "[#PLACEHOLDER_LOAD_FROM_FILE (a)]".data ⟨[], true⟩) ∧
    ((unroll_prompt envW 1 "[#PLACEHOLDER_LOAD_FROM_FILE (a)]".data ⟨[], true⟩).2.ok = false ∧
      ([] : List Key).length + 1 ≤
        (unroll_prompt envW 1 "[#PLACEHOLDER_LOAD_FROM_FILE (a)]".data
          ⟨[], true⟩).2.visited.length) := by
  obtain ⟨h1, h2, h3, h4, h5⟩ := c1_visited_once_and_terminates envW
  refine ⟨h1 5 _, h2 3 _ _ _ (by decide), h3 3 _ _ _ (by decide),
    ⟨by decide, h4 3 "[#PLACEHOLDER_LOAD_FROM_FILE (a)]".data ⟨[], true⟩ (by decide)
      7 (by decide)⟩,
    ⟨by decide, h5 1 "[#PLACEHOLDER_LOAD_FROM_FILE (a)]".data ⟨[], true⟩ rfl (by decide)⟩⟩


theorem file_repl_res (env : Env) (n : Nat) (f m : List Char) (s : St)
    (hv : Key.file f ∉ s.visited) :
    file_repl env n f m s = unroll_prompt env n (file_content env f)
      { s with visited := Key.file f :: s.visited } := by
  unfold file_repl
  rw [if_neg hv]

/-- C2: the top-level expansion is total — it always produces a plain text,
never an error return, because every resolution failure is caught at the
point of resolution.  On an input with two file directives where the first
file is missing and the second loads directive-free content, the failing
directive is replaced in place by the inline text
`[Error loading file '<filename>': <message>]` while the rest of the input
is expanded normally. -/
theorem c2_failure_inlined_rest_expanded (env : Env) (n : Nat)
    (t pre mid post f1 f2 d1 d2 cB : List Char)
    (hscan : pyScan matchFileAt t = ([(pre, f1, d1), (mid, f2, d2)], post))
    (h1 : unroll_prompt_from_file env none f1 = none)
    (h2 : unroll_prompt_from_file env none f2 = some cB)
    (hne : f1 ≠ f2)
    (hEf : (pyScan matchFileAt (fileErrText f1 env.fileMsg)).1 = [])
    (hEg : (pyScan matchGitAt (fileErrText f1 env.fileMsg)).1 = [])
    (hBf : (pyScan matchFileAt cB).1 = [])
    (hBg : (pyScan matchGitAt cB).1 = [])
    (hgit : (pyScan matchGitAt
      (pre ++ (fileErrText f1 env.fileMsg ++ (mid ++ (cB ++ post))))).1 = []) :
    (unroll_prompt env (n + 1) t ⟨[], true⟩).1
      = pre ++ (fileErrText f1 env.fileMsg ++ (mid ++ (cB ++ post))) := by
  have hv1 : Key.file f1 ∉ (⟨[], true⟩ : St).visited := by simp
  have hstep1 : file_repl env n f1 d1 ⟨[], true⟩
      = unroll_prompt env n (fileErrText f1 env.fileMsg) ⟨[Key.file f1], true⟩ := by
    rw [file_repl_res env n f1 d1 ⟨[], true⟩ hv1]
    unfold file_content
    rw [h1]
  have hE := unroll_no_matches env n (fileErrText f1 env.fileMsg)
    ⟨[Key.file f1], true⟩ hEf hEg
  set s2 := (unroll_prompt env n (fileErrText f1 env.fileMsg) ⟨[Key.file f1], true⟩).2
    with hs2
  have hv2 : Key.file f2 ∉ s2.visited := by
    rw [hE.2]
    intro hc
    rw [List.mem_singleton] at hc
    injection hc with hc
    exact hne hc.symm
  have hstep2 : file_repl env n f2 d2 s2
      = unroll_prompt env n cB { s2 with visited := Key.file f2 :: s2.visited } := by
    rw [file_repl_res env n f2 d2 s2 hv2]
    unfold file_content
    rw [h2]
  have hB := unroll_no_matches env n cB { s2 with visited := Key.file f2 :: s2.visited }
    hBf hBg
  rw [unroll_succ2 env n t ⟨[], true⟩]
  rw [pySub_eq_fold matchFileAt]
  rw [hscan]
  simp only [foldSub]
  rw [hstep1, ← hs2, hstep2, hE.1, hB.1]
  simp only [List.append_assoc]
  rw [pySub_no_matches matchGitAt (git_repl env n) _ _ hgit]

theorem c2_failure_inlined_rest_expanded_witness :
    unroll_prompt_from_file envW none "missing.txt".data = none ∧
    (unroll_prompt envW 3
      "A[#PLACEHOLDER_LOAD_FROM_FILE (missing.txt)]B[#PLACEHOLDER_LOAD_FROM_FILE (c)]C".data
      ⟨[], true⟩).1
      = "A".data ++ (fileErrText "missing.txt".data envW.fileMsg
          ++ ("B".data ++ ("hello".data ++ "C".data))) :=
  ⟨by decide,
    c2_failure_inlined_rest_expanded envW 2
      "A[#PLACEHOLDER_LOAD_FROM_FILE (missing.txt)]B[#PLACEHOLDER_LOAD_FROM_FILE (c)]C".data
      "A".data "B".data "C".data "missing.txt".data "c".data
      "[#PLACEHOLDER_LOAD_FROM_FILE (missing.txt)]".data
      "[#PLACEHOLDER_LOAD_FROM_FILE (c)]".data "hello".data
      (by decide) (by decide) (by decide) (by decide) (by decide) (by decide)
      (by decide) (by decide) (by decide)⟩

/-- C6: if a text contains a file directive for file A, A's content
contains one file directive for file B, and B's content contains no
directives, then expansion replaces A's directive span with A's content in
which B's directive span has been replaced by exactly B's content. -/
theorem c6_nested_file_expansion (env : Env) (n : Nat)
    (t p q a1 a2 cA cB fA fB dA dB : List Char)
    (hscan : pyScan matchFileAt t = ([(p, fA, dA)], q))
    (hA : unroll_prompt_from_file env none fA = some cA)
    (hscanA : pyScan matchFileAt cA = ([(a1, fB, dB)], a2))
    (hB : unroll_prompt_from_file env none fB = some cB)
    (hne : fA ≠ fB)
    (hBf : (pyScan matchFileAt cB).1 = [])
    (hBg : (pyScan matchGitAt cB).1 = [])
    (hAg : (pyScan matchGitAt (a1 ++ (cB ++ a2))).1 = [])
    (htg : (pyScan matchGitAt (p ++ (a1 ++ (cB ++ (a2 ++ q))))).1 = []) :
    (unroll_prompt env (n + 2) t ⟨[], true⟩).1 = p ++ (a1 ++ (cB ++ (a2 ++ q))) := by
  have hcontA : file_content env fA = cA := by
    unfold file_content
    rw [hA]
  have hcontB : file_content env fB = cB := by
    unfold file_content
    rw [hB]
  have hvA : Key.file fA ∉ (⟨[], true⟩ : St).visited := by simp
  have hvB : Key.file fB ∉ (⟨[Key.file fA], true⟩ : St).visited := by
    intro hc
    rw [List.mem_singleton] at hc
    injection hc with hc
    exact hne hc.symm
  have hImid : (unroll_prompt env (n + 1) cA ⟨[Key.file fA], true⟩).1
      = a1 ++ (cB ++ a2) := by
    rw [unroll_succ2]
    rw [pySub_eq_fold matchFileAt, hscanA]
    simp only [foldSub]
    rw [file_repl_res env n fB dB _ hvB, hcontB]
    have hBres := unroll_no_matches env n cB
      { (⟨[Key.file fA], true⟩ : St) with visited := Key.file fB :: [Key.file fA] } hBf hBg
    rw [hBres.1]
    simp only [List.append_assoc]
    rw [pySub_no_matches matchGitAt (git_repl env n) _ _ hAg]
  have hstep1 : file_repl env (n + 1) fA dA ⟨[], true⟩
      = unroll_prompt env (n + 1) cA ⟨[Key.file fA], true⟩ := by
    rw [file_repl_res env (n + 1) fA dA ⟨[], true⟩ hvA, hcontA]
  have h2 : (2 : Nat) = 1 + 1 := rfl
  rw [show n + 2 = (n + 1) + 1 from rfl]
  rw [unroll_succ2 env (n + 1) t ⟨[], true⟩]
  rw [pySub_eq_fold matchFileAt, hscan]
  simp only [foldSub]
  rw [hstep1, hImid]
  simp only [List.append_assoc]
  rw [pySub_no_matches matchGitAt (git_repl env (n + 1)) _ _ htg]


theorem c6_nested_file_expansion_witness :
    unroll_prompt_from_file envW none "na".data
      = some "-[#PLACEHOLDER_LOAD_FROM_FILE (c)]-".data ∧
    unroll_prompt_from_file envW none "c".data = some "hello".data ∧
    (unroll_prompt envW 3 "P[#PLACEHOLDER_LOAD_FROM_FILE (na)]Q".data ⟨[], true⟩).1
      = "P".data ++ ("-".data ++ ("hello".data ++ ("-".data ++ "Q".data))) :=
  ⟨by decide, by decide,
    c6_nested_file_expansion envW 1 "P[#PLACEHOLDER_LOAD_FROM_FILE (na)]Q".data
      "P".data "Q".data "-".data "-".data
      "-[#PLACEHOLDER_LOAD_FROM_FILE (c)]-".data "hello".data
      "na".data "c".data
      "[#PLACEHOLDER_LOAD_FROM_FILE (na)]".data
      "[#PLACEHOLDER_LOAD_FROM_FILE (c)]".data
      (by decide) (by decide) (by decide) (by decide) (by decide) (by decide)
      (by decide) (by decide) (by decide)⟩

/-- C8: on a text made of non-directive (mark-free) segments surrounding
two well-formed directive occurrences of the same grammar, that grammar
matches each directive exactly at its own span: the match texts are the
two directive texts themselves (non-greedy per instance, never merged into
one match across the separating segment) and each captured argument is the
whitespace-trim of the written argument.  Both the file grammar and the git
grammar are covered. -/
theorem c8_grammar_span_exact
    (pre mid post ws1 ws2 f1 f2 u1 l1 b1 u2 l2 b2 : List Char)
    (hpre : noMark pre = true) (hmid : noMark mid = true) (hpost : noMark post = true)
    (hws1 : ∀ c ∈ ws1, isPySpace c = true) (hws2 : ∀ c ∈ ws2, isPySpace c = true)
    (hf1 : f1 ≠ []) (hf1p : ')' ∉ f1) (hf2 : f2 ≠ []) (hf2p : ')' ∉ f2)
    (hu1 : u1 ≠ []) (hu1p : ',' ∉ u1) (hl1 : l1 ≠ []) (hl1p : ',' ∉ l1)
    (hb1 : b1 ≠ []) (hb1p : ')' ∉ b1)
    (hu2 : u2 ≠ []) (hu2p : ',' ∉ u2) (hl2 : l2 ≠ []) (hl2p : ',' ∉ l2)
    (hb2 : b2 ≠ []) (hb2p : ')' ∉ b2) :
    pyScan matchFileAt (pre ++ dFile ws1 f1 ++ mid ++ dFile ws2 f2 ++ post)
      = ([(pre, pyStrip f1, dFile ws1 f1), (mid, pyStrip f2, dFile ws2 f2)], post) ∧
    pyScan matchGitAt (pre ++ dGit ws1 u1 l1 b1 ++ mid ++ dGit ws2 u2 l2 b2 ++ post)
      = ([(pre, (pyStrip u1, pyStrip l1, pyStrip b1), dGit ws1 u1 l1 b1),
          (mid, (pyStrip u2, pyStrip l2, pyStrip b2), dGit ws2 u2 l2 b2)], post) := by
  constructor
  · exact pyScan_two matchFileAt matchFileAt_lt matchFileAt_head
      pre (dFile ws1 f1) mid (dFile ws2 f2) post (pyStrip f1) (pyStrip f2)
      hpre hmid hpost
      (matchFileAt_canon ws1 f1 (mid ++ (dFile ws2 f2 ++ post)) hws1 hf1 hf1p)
      (matchFileAt_canon ws2 f2 post hws2 hf2 hf2p)
      ⟨_, rfl⟩ ⟨_, rfl⟩
  · exact pyScan_two matchGitAt matchGitAt_lt matchGitAt_head
      pre (dGit ws1 u1 l1 b1) mid (dGit ws2 u2 l2 b2) post
      (pyStrip u1, pyStrip l1, pyStrip b1) (pyStrip u2, pyStrip l2, pyStrip b2)
      hpre hmid hpost
      (matchGitAt_canon ws1 u1 l1 b1 (mid ++ (dGit ws2 u2 l2 b2 ++ post))
        hws1 hu1 hu1p hl1 hl1p hb1 hb1p)
      (matchGitAt_canon ws2 u2 l2 b2 post hws2 hu2 hu2p hl2 hl2p hb2 hb2p)
      ⟨_, rfl⟩ ⟨_, rfl⟩


theorem c8_grammar_span_exact_witness :
    pyScan matchFileAt ("Use ".data ++ dFile [' '] "one.txt".data ++ " then ".data
        ++ dFile [' '] " two.txt ".data ++ " end".data)
      = ([("Use ".data, "one.txt".data, dFile [' '] "one.txt".data),
          (" then ".data, "two.txt".data, dFile [' '] " two.txt ".data)], " end".data) ∧
    pyScan matchGitAt ("Use ".data ++ dGit [' '] "u1".data " f1 ".data "m".data
        ++ " then ".data ++ dGit [' '] "u2".data "f2".data " dev".data ++ " end".data)
      = ([("Use ".data, ("u1".data, "f1".data, "m".data), dGit [' '] "u1".data " f1 ".data "m".data),
          (" then ".data, ("u2".data, "f2".data, "dev".data),
            dGit [' '] "u2".data "f2".data " dev".data)], " end".data) := by
  have h := c8_grammar_span_exact "Use ".data " then ".data " end".data [' '] [' ']
    "one.txt".data " two.txt ".data
    "u1".data " f1 ".data "m".data "u2".data "f2".data " dev".data
    (by decide) (by decide) (by decide) (by decide) (by decide)
    (by decide) (by decide) (by decide) (by decide)
    (by decide) (by decide) (by decide) (by decide) (by decide) (by decide)
    (by decide) (by decide) (by decide) (by decide) (by decide) (by decide)
  refine ⟨?_, ?_⟩
  · have h1 := h.1
    rw [h1]
    have e1 : pyStrip "one.txt".data = "one.txt".data := by decide
    have e2 : pyStrip " two.txt ".data = "two.txt".data := by decide
    rw [e1, e2]
  · have h2 := h.2
    rw [h2]
    have e1 : pyStrip "u1".data = "u1".data := by decide
    have e2 : pyStrip " f1 ".data = "f1".data := by decide
    have e3 : pyStrip "m".data = "m".data := by decide
    have e4 : pyStrip "u2".data = "u2".data := by decide
    have e5 : pyStrip "f2".data = "f2".data := by decide
    have e6 : pyStrip " dev".data = "dev".data := by decide
    rw [e1, e2, e3, e4, e5, e6]
